import Mathlib

/-!
Verification of the subtree-discovery and negative-tree-generation core of
`loreiba.sgcl` (files `loreiba/sgcl/trees/generation.py` and
`loreiba/sgcl/data.py`).

A dependency tree is represented, as in the Python code, by a finite mapping
from token id to parent id (`None` for the synthetic root 0).  Python dicts
are embedded as association lists over `Nat × Option Nat` in insertion order;
Python sets are embedded as duplicate-free lists built in discovery order.
Unbounded `while` loops are embedded with explicit fuel; theorems establish
that the fuel chosen in the top-level definitions is always sufficient.
The random draws of `random.sample` are embedded as an oracle
`draws : Nat → List Nat × List Nat` giving the two raw samples consumed by
the n-th iteration of the sampling loop; hypotheses on the oracle state
exactly the guarantees `random.sample` provides (size, distinctness,
membership in the population).
-/

namespace LrSib

/-- Embedding of a Python `Dict[int, int | None]` as an association list in
insertion order: the parent map of a dependency tree, or one of its
subtrees. -/
abbrev HeadMap := List (Nat × Option Nat)

/-- Lookup in a `HeadMap`: `lookup? m k = some v` when `k` is a key bound to
`v`, `none` when `k` is absent (Python `k in m` is `(lookup? m k).isSome`). -/
def lookup? (m : HeadMap) (k : Nat) : Option (Option Nat) :=
  match m with
  | [] => none
  | (k', v) :: rest => if k' = k then some v else lookup? rest k

/-- Python `k in head_map.keys()`. -/
def hasKey (m : HeadMap) (k : Nat) : Bool :=
  (lookup? m k).isSome

/-- Python `head_map[k]`, totalised: returns `none` where Python would raise
`KeyError` (unreachable on the well-formed inputs the claims quantify over,
since every id looked up is a key of the map). -/
def getV (m : HeadMap) (k : Nat) : Option Nat :=
  (lookup? m k).getD none

/-- The key list of a `HeadMap`, in insertion order (Python `dict.keys()`). -/
def keys (m : HeadMap) : List Nat :=
  m.map Prod.fst

/-- Python `del m[k]` (a no-op when `k` is absent; the code only deletes
after an `in` check, and deleting an absent key leaves the map unchanged
either way). -/
def eraseKey (m : HeadMap) (k : Nat) : HeadMap :=
  match m with
  | [] => []
  | (k', v) :: rest => if k' = k then eraseKey rest k else (k', v) :: eraseKey rest k

/-- Python `m[k] = v`: overwrite in place if `k` is a key, else append. -/
def insertKey (m : HeadMap) (k : Nat) (v : Option Nat) : HeadMap :=
  match m with
  | [] => [(k, v)]
  | (k', v') :: rest => if k' = k then (k, v) :: rest else (k', v') :: insertKey rest k v

/-- Modelled from the spec: the `TreeSgclConfig` record (defined in
`loreiba/sgcl/trees/common.py`, which is not part of the sources); only the
four integer fields used by the tree-generation core are modelled. -/
structure TreeSgclConfig where
  min_subtree_size : Nat
  max_replacements : Nat
  max_negative_per_subtree : Nat
  max_retry : Nat
deriving DecidableEq

/-- `immediate_children` of `generation.py`: all ids whose parent equals
`token_id` (the root's `None` parent never equals an id). -/
def immediate_children (m : HeadMap) (token_id : Nat) : List Nat :=
  (m.filter (fun p => decide (p.2 = some token_id))).map Prod.fst

/-- The breadth-first `while` loop of `subtree_of_id`, with explicit fuel:
pop the head of the queue, record it with its true parent, enqueue its
children.  Fuel `m.length` is provably sufficient on well-formed maps. -/
def subtree_of_go (m : HeadMap) : Nat → HeadMap → List Nat → HeadMap
  | 0, subtree, _ => subtree
  | _ + 1, subtree, [] => subtree
  | fuel + 1, subtree, t :: queue =>
      subtree_of_go m fuel (insertKey subtree t (getV m t))
        (queue ++ immediate_children m t)

/-- `subtree_of_id` of `generation.py`: the subtree rooted at `token_id`,
root marked with `none`, every descendant bound to its true parent. -/
def subtree_of_id (m : HeadMap) (token_id : Nat) : HeadMap :=
  subtree_of_go m m.length [(token_id, none)] (immediate_children m token_id)

/-- The `while current is not None` ancestor walk of
`adjacent_ids_of_subtree`, with explicit fuel (sufficient fuel is
`m.length` on well-formed maps): the visited ids, in order. -/
def ancestor_chain (m : HeadMap) : Nat → Option Nat → List Nat
  | _, none => []
  | 0, some _ => []
  | fuel + 1, some cur => cur :: ancestor_chain m fuel (getV m cur)

/-- Body of the inner `for x in [left, right]` loop of
`adjacent_ids_of_subtree`: add `x` to the adjacency accumulator when it is a
positive existing id outside both the subtree and the ancestor chain
(`adj` is a Python set: adding an element already present is a no-op). -/
def considerAdj (m : HeadMap) (sids parent_ids adj : List Nat) (x : Nat) : List Nat :=
  if 0 < x ∧ x ∉ sids ∧ x ∉ parent_ids ∧ hasKey m x = true ∧ x ∉ adj then
    adj ++ [x]
  else adj

/-- `adjacent_ids_of_subtree` of `generation.py`.  The Python code walks the
ancestor chain from `tuple(subtree_ids)[0]`, an arbitrary element of the set
`subtree_ids`; the chosen element is made an explicit parameter `start`
(theorems quantify over every `start ∈ subtree_ids`).  For a subtree id
`token_id`, `token_id - 1` is truncated Nat subtraction; at `token_id = 0`
this gives `0`, rejected by the `0 < x` guard exactly as Python rejects
`-1`. -/
def adjacent_ids_of_subtree (m : HeadMap) (subtree_ids : List Nat) (start : Nat) : List Nat :=
  let parent_ids := ancestor_chain m m.length (some start)
  subtree_ids.foldl
    (fun adjacent token_id =>
      [token_id - 1, token_id + 1].foldl (considerAdj m subtree_ids parent_ids) adjacent)
    []

/-- `get_all_subtrees` of `generation.py`, as the indexing function it is
used as: `all_subtrees[token_id] = subtree_of_id(head_map, token_id)`
(Python builds the dict for `token_id ∈ range(1, len(head_map))`; only those
indices are ever looked up). -/
def get_all_subtrees (m : HeadMap) : Nat → HeadMap :=
  fun token_id => subtree_of_id m token_id

/-- The eligibility guard of `get_eligible_subtrees` (lines 69-73 of
`generation.py`): the subtree clears `min_subtree_size` and at least one
adjacent id is available. -/
def eligible (cfg : TreeSgclConfig) (subtree : HeadMap) (adjacent_ids : List Nat) : Prop :=
  ¬ (subtree.length < cfg.min_subtree_size) ∧ ¬ (adjacent_ids.length < 1)

instance (cfg : TreeSgclConfig) (subtree : HeadMap) (adjacent_ids : List Nat) :
    Decidable (eligible cfg subtree adjacent_ids) :=
  inferInstanceAs (Decidable (_ ∧ _))

/-- `all_replacement_targets` of `generate_negative_trees`: the subtree ids
carrying a non-`none` parent, i.e. everything except the local root. -/
def all_replacement_targets (subtree : HeadMap) : List Nat :=
  (subtree.filter (fun p => p.2.isSome)).map Prod.fst

/-- `sample_size` of `generate_negative_trees`:
`min(len(targets), len(values), config.max_replacements)`. -/
def sample_size (cfg : TreeSgclConfig) (subtree : HeadMap) (adjacent_ids : List Nat) : Nat :=
  min (min (all_replacement_targets subtree).length adjacent_ids.length) cfg.max_replacements

/-- One `(target, value)` step of the splice loop of
`generate_negative_trees`: note the `none`-valued key of the target's
subtree (`subtree_head_id`, line 133), delete every id of the target's
subtree from the working copy, then write every entry of the value's
subtree, replacing its `none` local-root marker by `subtree_head_id`. -/
def spliceOne (all_subtrees : Nat → HeadMap) (negative_tree : HeadMap) (tv : Nat × Nat) :
    HeadMap :=
  let target_subtree := all_subtrees tv.1
  let subtree_head_id :=
    (((target_subtree.filter (fun p => p.2.isNone)).map Prod.fst).headD 0)
  let erased := target_subtree.foldl (fun acc p => eraseKey acc p.1) negative_tree
  let replacement_subtree := all_subtrees tv.2
  replacement_subtree.foldl
    (fun acc p =>
      insertKey acc p.1
        (match p.2 with
         | none => some subtree_head_id
         | some h => some h))
    erased

/-- The `for target, value in zip(targets, values)` loop of
`generate_negative_trees`, starting from the copy of the positive
subtree. -/
def buildNegative (all_subtrees : Nat → HeadMap) (subtree : HeadMap)
    (pairs : List (Nat × Nat)) : HeadMap :=
  pairs.foldl (spliceOne all_subtrees) subtree

/-- The mutable state of the sampling loop of `generate_negative_trees`:
the set of signatures already produced, the negatives list, the retry
counter, and the position in the random stream (two `random.sample` calls,
i.e. one oracle index, are consumed per iteration). -/
structure GenState where
  already_done : List (List Nat × List Nat)
  negatives : List HeadMap
  retry_count : Nat
  draw_idx : Nat
deriving DecidableEq

/-- Python `tuple(sorted(l))`: ascending sort. -/
def sortNat (l : List Nat) : List Nat :=
  List.insertionSort (fun a b => a ≤ b) l

/-- The `while len(negatives) < config.max_negative_per_subtree` loop of
`generate_negative_trees`, with explicit fuel (`none` = fuel exhausted;
the fuel used by `genFinal` is proved sufficient).  Each iteration sorts
the two raw samples supplied by the oracle, then either records a fresh
signature and appends the spliced negative, or counts a collision and
breaks once `retry_count` exceeds `max_retry`. -/
def genLoop (cfg : TreeSgclConfig) (all_subtrees : Nat → HeadMap) (subtree : HeadMap)
    (draws : Nat → List Nat × List Nat) : Nat → GenState → Option GenState
  | 0, _ => none
  | fuel + 1, s =>
    if s.negatives.length < cfg.max_negative_per_subtree then
      if (sortNat (draws s.draw_idx).1, sortNat (draws s.draw_idx).2) ∈ s.already_done then
        if cfg.max_retry < s.retry_count + 1 then
          some { s with retry_count := s.retry_count + 1, draw_idx := s.draw_idx + 1 }
        else
          genLoop cfg all_subtrees subtree draws fuel
            { s with retry_count := s.retry_count + 1, draw_idx := s.draw_idx + 1 }
      else
        genLoop cfg all_subtrees subtree draws fuel
          { s with
              already_done := s.already_done ++
                [(sortNat (draws s.draw_idx).1, sortNat (draws s.draw_idx).2)],
              negatives := s.negatives ++
                [buildNegative all_subtrees subtree
                  ((sortNat (draws s.draw_idx).1).zip (sortNat (draws s.draw_idx).2))],
              draw_idx := s.draw_idx + 1 }
    else some s

/-- The final state of the sampling loop, run with fuel
`max_negative_per_subtree + max_retry + 2` (proved sufficient: every
iteration either appends a negative or increments the retry counter). -/
def genFinal (cfg : TreeSgclConfig) (all_subtrees : Nat → HeadMap) (subtree : HeadMap)
    (draws : Nat → List Nat × List Nat) : GenState :=
  (genLoop cfg all_subtrees subtree draws
      (cfg.max_negative_per_subtree + cfg.max_retry + 2)
      ⟨[], [], 0, 0⟩).getD ⟨[], [], 0, 0⟩

/-- The return value of `generate_negative_trees`:
`{"root_id": ..., "positive": ..., "negatives": ...}`. -/
structure TreeSet where
  root_id : Nat
  positive : HeadMap
  negatives : List HeadMap
deriving DecidableEq

/-- `generate_negative_trees` of `generation.py` (the `adjacent_ids`
argument only feeds the sampling populations, which the oracle `draws`
samples from; it is kept as an argument for the pipeline-level wiring). -/
def generate_negative_trees (cfg : TreeSgclConfig) (all_subtrees : Nat → HeadMap)
    (draws : Nat → List Nat × List Nat) (root_id : Nat) (subtree : HeadMap)
    (_adjacent_ids : List Nat) : TreeSet :=
  { root_id := root_id
    positive := subtree
    negatives := (genFinal cfg all_subtrees subtree draws).negatives }

/-- The guarantee `random.sample(population, k)` gives about its result:
`k` elements, pairwise distinct, all drawn from the population. -/
def ValidSample (population : List Nat) (k : Nat) (s : List Nat) : Prop :=
  s.length = k ∧ s.Nodup ∧ ∀ x ∈ s, x ∈ population

/-- Model of the treebank-augmentation bookkeeping of `Finalize.run`
(`loreiba/sgcl/data.py`, lines 72-117) when a treebank dataset is provided.
Each split is a `(name, base row count, treebank row count)` triple; for the
`"train"` split the code computes `target_length = base // upl` and raises
`Exception("More treebank rows than expected!")` when the treebank rows
exceed it, otherwise upsamples the treebank rows to `target_length` by
cycling (an empty treebank cycles to nothing).  Python's `//` raises
`ZeroDivisionError` at `upl = 0`, modelled as a distinct error.  Errors
propagate: nothing in `run` catches them, so one error aborts the whole
batch and no partial dataset is returned. -/
def finalizeRun (splits : List (String × Nat × Nat)) (upl : Nat) :
    Except String (List (String × Nat)) :=
  match splits with
  | [] => .ok []
  | (name, base, tb) :: rest =>
    if name = "train" then
      if upl = 0 then .error "ZeroDivisionError"
      else if base / upl < tb then .error "More treebank rows than expected!"
      else
        (finalizeRun rest upl).map
          (fun r => (name, base + (if tb = 0 then 0 else base / upl)) :: r)
    else (finalizeRun rest upl).map (fun r => (name, base + tb) :: r)

/-- The parent map of the end-to-end example of the spec:
`{0: none, 1: 0, 2: 1, 3: 1, 4: 2}`. -/
def exMap : HeadMap :=
  [(0, none), (1, some 0), (2, some 1), (3, some 1), (4, some 2)]

/-- Parent iteration: `iterP m n x` follows parent links for `n` steps,
stopping (and staying) at any id whose parent is `none` or that is not a
key. -/
def iterP (m : HeadMap) : Nat → Nat → Nat
  | 0, x => x
  | n + 1, x =>
    match getV m x with
    | none => x
    | some p => iterP m n p

/-- Decidable check that a non-root key's parent is itself a key. -/
def parentOkB (m : HeadMap) (k : Nat) : Bool :=
  match lookup? m k with
  | some (some p) => decide (p ∈ keys m)
  | _ => false

/-- Well-formedness of a parent map, as assumed (not validated) by the code:
distinct keys, the synthetic root `0` is a key with parent `none`, every
other key's parent is again a key, and every key's parent chain reaches `0`
within `m.length` steps (which rules out cycles and stray roots). -/
def WF (m : HeadMap) : Prop :=
  (keys m).Nodup ∧
  lookup? m 0 = some none ∧
  (∀ k ∈ keys m, k ≠ 0 → parentOkB m k = true) ∧
  (∀ k ∈ keys m, iterP m m.length k = 0)

instance (m : HeadMap) : Decidable (WF m) :=
  inferInstanceAs (Decidable (_ ∧ _ ∧ _ ∧ _))

/-- Child step: `c` is a key whose recorded parent is `a`. -/
def cstep (m : HeadMap) (a c : Nat) : Prop :=
  lookup? m c = some (some a)

/-- Parent step: the recorded parent of `a` is `b`. -/
def pstep (m : HeadMap) (a b : Nat) : Prop :=
  getV m a = some b

/-- `x` is a transitive descendant of `r` in `m`. -/
def desc (m : HeadMap) (r x : Nat) : Prop :=
  Relation.TransGen (cstep m) r x

/-- `y` is `x` itself or a (transitive) ancestor of `x` in `m`. -/
def upReach (m : HeadMap) (x y : Nat) : Prop :=
  Relation.ReflTransGen (pstep m) x y

/-! ### Association-list lemmas -/

theorem mem_keys_iff_lookup {m : HeadMap} {k : Nat} :
    k ∈ keys m ↔ (lookup? m k).isSome := by
  induction m with
  | nil => simp [keys, lookup?]
  | cons p rest ih =>
    obtain ⟨k', v⟩ := p
    by_cases h : k' = k
    · subst h
      simp [keys, lookup?]
    · rw [show keys ((k', v) :: rest) = k' :: keys rest from rfl]
      simp [lookup?, h, Ne.symm h, ih]

theorem hasKey_iff {m : HeadMap} {k : Nat} : hasKey m k = true ↔ k ∈ keys m := by
  simp [hasKey, mem_keys_iff_lookup]

theorem lookup_mem {m : HeadMap} {k : Nat} {v : Option Nat}
    (h : lookup? m k = some v) : (k, v) ∈ m := by
  induction m with
  | nil => simp [lookup?] at h
  | cons p rest ih =>
    obtain ⟨k', v'⟩ := p
    by_cases hk : k' = k
    · subst hk
      simp [lookup?] at h
      simp [h]
    · simp [lookup?, hk] at h
      exact List.mem_cons_of_mem _ (ih h)

theorem mem_lookup {m : HeadMap} (hnd : (keys m).Nodup) {k : Nat} {v : Option Nat}
    (h : (k, v) ∈ m) : lookup? m k = some v := by
  induction m with
  | nil => simp at h
  | cons p rest ih =>
    obtain ⟨k', v'⟩ := p
    have hnd' : k' ∉ keys rest ∧ (keys rest).Nodup := by
      simpa [keys, List.nodup_cons] using hnd
    rcases List.mem_cons.mp h with h1 | h1
    · injection h1 with h2 h3
      subst h2; subst h3
      simp [lookup?]
    · have hkk : k' ≠ k := by
        intro he
        subst he
        exact hnd'.1 (List.mem_map.mpr ⟨(k', v), h1, rfl⟩)
      simp [lookup?, hkk]
      exact ih hnd'.2 h1

theorem lookup_eq_getV {m : HeadMap} {k : Nat} (h : k ∈ keys m) :
    lookup? m k = some (getV m k) := by
  have := mem_keys_iff_lookup.mp h
  cases hl : lookup? m k with
  | none => rw [hl] at this; simp at this
  | some v => simp [getV, hl]

theorem insertKey_lookup_self (m : HeadMap) (k : Nat) (v : Option Nat) :
    lookup? (insertKey m k v) k = some v := by
  induction m with
  | nil => simp [insertKey, lookup?]
  | cons p rest ih =>
    obtain ⟨k', v'⟩ := p
    by_cases h : k' = k
    · simp [insertKey, h, lookup?]
    · simp [insertKey, h, lookup?, ih]

theorem insertKey_lookup_ne (m : HeadMap) (k : Nat) (v : Option Nat) {k' : Nat}
    (h : k' ≠ k) : lookup? (insertKey m k v) k' = lookup? m k' := by
  induction m with
  | nil => simp [insertKey, lookup?, Ne.symm h]
  | cons p rest ih =>
    obtain ⟨a, b⟩ := p
    by_cases ha : a = k
    · subst ha
      simp [insertKey, lookup?, Ne.symm h]
    · by_cases ha' : a = k'
      · simp [insertKey, lookup?, ha, ha', h]
      · simp [insertKey, lookup?, ha, ha', ih]

theorem insertKey_keys_of_not_mem {m : HeadMap} {k : Nat} (h : k ∉ keys m)
    (v : Option Nat) : keys (insertKey m k v) = keys m ++ [k] := by
  induction m with
  | nil => simp [insertKey, keys]
  | cons p rest ih =>
    obtain ⟨a, b⟩ := p
    have hm : k ∉ keys rest ∧ a ≠ k := by
      rw [show keys ((a, b) :: rest) = a :: keys rest from rfl] at h
      simp at h
      exact ⟨h.2, fun he => h.1 he.symm⟩
    rw [show insertKey ((a, b) :: rest) k v = (a, b) :: insertKey rest k v from by
      simp [insertKey, hm.2]]
    rw [show keys ((a, b) :: insertKey rest k v) = a :: keys (insertKey rest k v) from rfl]
    rw [ih hm.1]
    rfl

theorem eraseKey_lookup_ne (m : HeadMap) (k : Nat) {k' : Nat} (h : k' ≠ k) :
    lookup? (eraseKey m k) k' = lookup? m k' := by
  induction m with
  | nil => simp [eraseKey]
  | cons p rest ih =>
    obtain ⟨a, b⟩ := p
    by_cases ha : a = k
    · subst ha
      simp [eraseKey, lookup?, Ne.symm h, ih]
    · by_cases ha' : a = k'
      · simp [eraseKey, lookup?, ha, ha', h]
      · simp [eraseKey, lookup?, ha, ha', ih]

theorem immediate_children_iff {m : HeadMap} (hnd : (keys m).Nodup) {t c : Nat} :
    c ∈ immediate_children m t ↔ cstep m t c := by
  unfold immediate_children cstep
  constructor
  · intro h
    rcases List.mem_map.mp h with ⟨⟨c', v⟩, hmem, hfst⟩
    rcases List.mem_filter.mp hmem with ⟨hmem', hv⟩
    simp at hv hfst
    subst hfst
    subst hv
    exact mem_lookup hnd hmem'
  · intro h
    exact List.mem_map.mpr ⟨(c, some t), List.mem_filter.mpr ⟨lookup_mem h, by simp⟩, rfl⟩

theorem immediate_children_sublist_keys (m : HeadMap) (t : Nat) :
    (immediate_children m t).Sublist (keys m) := by
  simpa [immediate_children, keys] using (List.filter_sublist m).map Prod.fst

theorem immediate_children_nodup {m : HeadMap} (hnd : (keys m).Nodup) (t : Nat) :
    (immediate_children m t).Nodup :=
  hnd.sublist (immediate_children_sublist_keys m t)

theorem keys_length (m : HeadMap) : (keys m).length = m.length := by
  simp [keys]

/-! ### Parent iteration, acyclicity and the ancestor chain -/

theorem iterP_of_getV_none {m : HeadMap} {x : Nat} (h : getV m x = none) :
    ∀ n, iterP m n x = x := by
  intro n
  cases n with
  | zero => rfl
  | succ n' => simp [iterP, h]

theorem iterP_one_succ (m : HeadMap) (n : Nat) (x : Nat) :
    iterP m (n + 1) x = iterP m n (iterP m 1 x) := by
  cases h : getV m x with
  | none => simp [iterP, h, iterP_of_getV_none h]
  | some p => simp [iterP, h]

theorem iterP_add (m : HeadMap) (a b x : Nat) :
    iterP m (a + b) x = iterP m a (iterP m b x) := by
  induction b generalizing x with
  | zero => rfl
  | succ b' ih =>
    rw [show a + (b' + 1) = (a + b') + 1 from rfl, iterP_one_succ, ih, ← iterP_one_succ]

theorem wf_parent {m : HeadMap} (hwf : WF m) {k : Nat} (hk : k ∈ keys m) (h0 : k ≠ 0) :
    ∃ p, lookup? m k = some (some p) ∧ p ∈ keys m := by
  have hb := hwf.2.2.1 k hk h0
  unfold parentOkB at hb
  cases hl : lookup? m k with
  | none => rw [hl] at hb; simp at hb
  | some v =>
    cases v with
    | none => rw [hl] at hb; simp at hb
    | some p =>
      rw [hl] at hb
      simp at hb
      exact ⟨p, rfl, hb⟩

theorem getV_zero {m : HeadMap} (hwf : WF m) : getV m 0 = none := by
  simp [getV, hwf.2.1]

theorem iterP_mem_keys {m : HeadMap} (hwf : WF m) {k : Nat} (hk : k ∈ keys m) :
    ∀ n, iterP m n k ∈ keys m := by
  intro n
  induction n generalizing k with
  | zero => exact hk
  | succ n' ih =>
    cases h : getV m k with
    | none => simpa [iterP, h] using hk
    | some p =>
      have hkne : k ≠ 0 := by
        intro he; subst he
        rw [getV_zero hwf] at h
        exact Option.noConfusion h
      obtain ⟨q, hq, hqm⟩ := wf_parent hwf hk hkne
      have : p = q := by
        have := lookup_eq_getV hk
        rw [hq, h] at this
        exact (Option.some.inj (Option.some.inj this)).symm
      subst this
      simpa [iterP, h] using ih hqm

theorem iterP_reach_lt_length (m : HeadMap) (hwf : WF m) {k : Nat} (hk : k ∈ keys m) :
    ∃ n, iterP m n k = 0 ∧ n < m.length := by
  classical
  have hex : ∃ n, iterP m n k = 0 := ⟨m.length, hwf.2.2.2 k hk⟩
  have hspec : iterP m (Nat.find hex) k = 0 := Nat.find_spec hex
  have hstep : ∀ i j, i < j → j ≤ Nat.find hex → iterP m i k = iterP m j k → False := by
    intro i j hij hj hval
    have h1 : iterP m ((Nat.find hex - j) + i) k = 0 := by
      have h2 : iterP m ((Nat.find hex - j) + j) k = 0 := by
        rw [Nat.sub_add_cancel hj]; exact hspec
      rw [iterP_add] at h2 ⊢
      rw [hval]
      exact h2
    exact Nat.find_min hex (by omega) h1
  have hnd : ((List.range (Nat.find hex + 1)).map (fun j => iterP m j k)).Nodup := by
    refine List.Nodup.map_on ?_ (List.nodup_range _)
    intro i hi j hj hval
    simp [List.mem_range] at hi hj
    by_contra hne
    rcases Nat.lt_or_ge i j with hlt | hge
    · exact hstep i j hlt (by omega) hval
    · exact hstep j i (by omega) (by omega) hval.symm
  have hsub : (List.range (Nat.find hex + 1)).map (fun j => iterP m j k) ⊆ keys m := by
    intro y hy
    rcases List.mem_map.mp hy with ⟨j, _, hj⟩
    exact hj ▸ iterP_mem_keys hwf hk j
  have hle := (hnd.subperm hsub).length_le
  simp [keys_length] at hle
  exact ⟨Nat.find hex, hspec, by omega⟩

theorem cstep_ne_zero {m : HeadMap} (hwf : WF m) {a c : Nat} (h : cstep m a c) :
    c ≠ 0 := by
  intro he; subst he
  unfold cstep at h
  rw [hwf.2.1] at h
  exact Option.noConfusion (Option.some.inj h)

theorem cstep_getV {m : HeadMap} {a c : Nat} (h : cstep m a c) : getV m c = some a := by
  simp [getV, cstep] at h ⊢
  simp [h]

theorem desc_lookup {m : HeadMap} {r x : Nat} (h : desc m r x) :
    ∃ p, lookup? m x = some (some p) := by
  induction h with
  | single hac => exact ⟨_, hac⟩
  | tail _ hbc _ => exact ⟨_, hbc⟩

theorem desc_mem_keys {m : HeadMap} {r x : Nat} (h : desc m r x) : x ∈ keys m := by
  obtain ⟨p, hp⟩ := desc_lookup h
  exact mem_keys_iff_lookup.mpr (by simp [hp])

theorem desc_iterP_lt {m : HeadMap} (hwf : WF m) {a c : Nat} (h : desc m a c) :
    ∀ n, iterP m n c = 0 → ∃ n' < n, iterP m n' a = 0 := by
  induction h with
  | single hac =>
    intro n hn
    cases n with
    | zero => exact absurd (by simpa [iterP] using hn) (cstep_ne_zero hwf hac)
    | succ n' =>
      refine ⟨n', Nat.lt_succ_self n', ?_⟩
      simpa [iterP, cstep_getV hac] using hn
  | tail _ hbc ih =>
    intro n hn
    cases n with
    | zero => exact absurd (by simpa [iterP] using hn) (cstep_ne_zero hwf hbc)
    | succ n' =>
      obtain ⟨n'', hlt, h0⟩ := ih n' (by simpa [iterP, cstep_getV hbc] using hn)
      exact ⟨n'', Nat.lt_trans hlt (Nat.lt_succ_self n'), h0⟩

theorem not_desc_self {m : HeadMap} (hwf : WF m) (a : Nat) : ¬ desc m a a := by
  intro h
  classical
  have hex : ∃ n, iterP m n a = 0 := ⟨m.length, hwf.2.2.2 a (desc_mem_keys h)⟩
  obtain ⟨n', hlt, h0⟩ := desc_iterP_lt hwf h (Nat.find hex) (Nat.find_spec hex)
  exact Nat.find_min hex hlt h0

theorem cstep_pstep {m : HeadMap} {a c : Nat} (h : cstep m a c) : pstep m c a := by
  unfold pstep
  exact cstep_getV h

theorem desc_upReach {m : HeadMap} {r x : Nat} (h : desc m r x) : upReach m x r := by
  induction h with
  | single hac => exact Relation.ReflTransGen.single (cstep_pstep hac)
  | tail _ hbc ih =>
    exact Relation.ReflTransGen.trans
      (Relation.ReflTransGen.single (cstep_pstep hbc)) ih

theorem mem_ancestor_chain {m : HeadMap} (hwf : WF m) :
    ∀ (n start : Nat), start ∈ keys m → iterP m n start = 0 →
      ∀ (f : Nat), n < f → ∀ y, upReach m start y →
        y ∈ ancestor_chain m f (some start) := by
  intro n
  induction n with
  | zero =>
    intro start hst h0 f hf y hy
    have hs0 : start = 0 := by simpa [iterP] using h0
    subst hs0
    have hy0 : y = 0 := by
      rcases Relation.ReflTransGen.cases_head hy with h | ⟨c, hc, _⟩
      · exact h.symm
      · unfold pstep at hc
        rw [getV_zero hwf] at hc
        exact Option.noConfusion hc
    subst hy0
    cases f with
    | zero => omega
    | succ f' => simp [ancestor_chain]
  | succ n' ih =>
    intro start hst h0 f hf y hy
    cases f with
    | zero => omega
    | succ f' =>
      rcases Relation.ReflTransGen.cases_head hy with h | ⟨c, hc, hcy⟩
      · subst h
        simp [ancestor_chain]
      · have hcv : getV m start = some c := hc
        have hstart0 : start ≠ 0 := by
          intro he; subst he
          rw [getV_zero hwf] at hcv
          exact Option.noConfusion hcv
        have hcm : c ∈ keys m := by
          obtain ⟨q, hq, hqm⟩ := wf_parent hwf hst hstart0
          have : getV m start = some q := by simp [getV, hq]
          rw [hcv] at this
          exact (Option.some.inj this) ▸ hqm
        have h0' : iterP m n' c = 0 := by simpa [iterP, hcv] using h0
        have := ih c hcm h0' f' (by omega) y hcy
        simp [ancestor_chain, hcv]
        exact Or.inr this

theorem upReach_mem_chain {m : HeadMap} (hwf : WF m) {start y : Nat}
    (hst : start ∈ keys m) (hy : upReach m start y) :
    y ∈ ancestor_chain m m.length (some start) := by
  obtain ⟨n, h0, hlt⟩ := iterP_reach_lt_length m hwf hst
  exact mem_ancestor_chain hwf n start hst h0 m.length hlt y hy

/-! ### The breadth-first subtree loop computes the descendant closure -/

theorem subtree_go_spec {m : HeadMap} (hwf : WF m) (r : Nat) :
    ∀ (fuel : Nat) (subtree : HeadMap) (queue : List Nat),
      (keys subtree ++ queue).Nodup →
      lookup? subtree r = some none →
      (∀ k ∈ keys subtree, k ≠ r → desc m r k ∧ lookup? subtree k = lookup? m k) →
      (∀ q ∈ queue, desc m r q) →
      (∀ x, desc m r x → x ∈ keys subtree ∨ ∃ q ∈ queue, x = q ∨ desc m q x) →
      (∀ c, (c ∈ keys subtree ∨ c ∈ queue) → c ≠ r →
        ∀ p, lookup? m c = some (some p) → p ∈ keys subtree) →
      (∀ k ∈ keys subtree, k ∈ keys m) →
      m.length + 1 ≤ fuel + (keys subtree).length →
      (keys (subtree_of_go m fuel subtree queue)).Nodup ∧
      lookup? (subtree_of_go m fuel subtree queue) r = some none ∧
      (∀ k ∈ keys (subtree_of_go m fuel subtree queue), k ≠ r →
        desc m r k ∧ lookup? (subtree_of_go m fuel subtree queue) k = lookup? m k) ∧
      (∀ x, desc m r x → x ∈ keys (subtree_of_go m fuel subtree queue)) := by
  intro fuel
  induction fuel with
  | zero =>
    intro subtree queue hnd _ _ _ _ _ hsubm hlen
    exfalso
    have h1 : (keys subtree).Nodup := (List.nodup_append.mp hnd).1
    have h2 := (List.subperm_of_subset h1 (fun a ha => hsubm a ha)).length_le
    rw [keys_length, keys_length] at h2
    rw [keys_length] at hlen
    omega
  | succ fuel ih =>
    intro subtree queue hnd hroot hsub hq hcomp hpar hsubm hlen
    cases queue with
    | nil =>
      refine ⟨(List.nodup_append.mp hnd).1, hroot, hsub, ?_⟩
      intro x hx
      rcases hcomp x hx with h1 | ⟨q, hqmem, _⟩
      · exact h1
      · simp at hqmem
    | cons t queue' =>
      have hdt : desc m r t := hq t (List.mem_cons_self t queue')
      have htneR : t ≠ r := fun he => not_desc_self hwf r (he ▸ hdt)
      have htm : t ∈ keys m := desc_mem_keys hdt
      have hdisj := (List.nodup_append.mp hnd).2.2
      have htnotsub : t ∉ keys subtree :=
        fun hc => hdisj hc (List.mem_cons_self t queue')
      have keys' : keys (insertKey subtree t (getV m t)) = keys subtree ++ [t] :=
        insertKey_keys_of_not_mem htnotsub _
      have hlookup_t : lookup? m t = some (getV m t) := lookup_eq_getV htm
      have hcfree : ∀ c ∈ immediate_children m t, c ∉ keys subtree ∧ c ∉ t :: queue' := by
        intro c hc
        have hcs := (immediate_children_iff hwf.1).mp hc
        have hkey : ¬ (c ∈ keys subtree ∨ c ∈ t :: queue') := by
          intro hin
          by_cases hcr : c = r
          · rw [hcr] at hcs
            exact not_desc_self hwf r (Relation.TransGen.tail hdt hcs)
          · exact htnotsub (hpar c hin hcr t hcs)
        exact ⟨fun h1 => hkey (Or.inl h1), fun h1 => hkey (Or.inr h1)⟩
      have hstep :
          subtree_of_go m (fuel + 1) subtree (t :: queue') =
          subtree_of_go m fuel (insertKey subtree t (getV m t))
            (queue' ++ immediate_children m t) := rfl
      rw [hstep]
      apply ih
      · -- Nodup of new visited keys and queue
        have heq : keys (insertKey subtree t (getV m t)) ++
            (queue' ++ immediate_children m t) =
            (keys subtree ++ t :: queue') ++ immediate_children m t := by
          rw [keys']
          simp
        rw [heq]
        refine List.nodup_append.mpr ⟨hnd, immediate_children_nodup hwf.1 t, ?_⟩
        intro a ha hic
        rcases List.mem_append.mp ha with h1 | h1
        · exact (hcfree a hic).1 h1
        · exact (hcfree a hic).2 h1
      · rw [insertKey_lookup_ne _ _ _ (Ne.symm htneR)]
        exact hroot
      · intro k hk hkr
        rw [keys'] at hk
        rcases List.mem_append.mp hk with hk1 | hk1
        · have hne : k ≠ t := fun he => htnotsub (he ▸ hk1)
          obtain ⟨hd, hl⟩ := hsub k hk1 hkr
          exact ⟨hd, by rw [insertKey_lookup_ne _ _ _ hne]; exact hl⟩
        · have hkt : k = t := by simpa using hk1
          subst hkt
          exact ⟨hdt, by rw [insertKey_lookup_self]; exact hlookup_t.symm⟩
      · intro q hq2
        rcases List.mem_append.mp hq2 with h1 | h1
        · exact hq q (List.mem_cons_of_mem _ h1)
        · exact Relation.TransGen.tail hdt ((immediate_children_iff hwf.1).mp h1)
      · intro x hx
        rcases hcomp x hx with h1 | ⟨q, hqmem, h2⟩
        · left
          rw [keys']
          exact List.mem_append.mpr (Or.inl h1)
        · rcases List.mem_cons.mp hqmem with hq1 | hq1
          · rw [hq1] at h2
            rcases h2 with h3 | h3
            · left
              rw [keys', h3]
              exact List.mem_append.mpr (Or.inr (List.mem_singleton_self t))
            · rcases Relation.TransGen.head'_iff.mp h3 with ⟨c, hc1, hc2⟩
              have hcmem : c ∈ immediate_children m t :=
                (immediate_children_iff hwf.1).mpr hc1
              right
              refine ⟨c, List.mem_append.mpr (Or.inr hcmem), ?_⟩
              rcases Relation.reflTransGen_iff_eq_or_transGen.mp hc2 with he | ht
              · left; exact he
              · right; exact ht
          · right
            exact ⟨q, List.mem_append.mpr (Or.inl hq1), h2⟩
      · intro c hc hcr p hp
        have hgoal : p ∈ keys subtree → p ∈ keys (insertKey subtree t (getV m t)) := by
          intro h1
          rw [keys']
          exact List.mem_append.mpr (Or.inl h1)
        rcases hc with hc1 | hc1
        · rw [keys'] at hc1
          rcases List.mem_append.mp hc1 with h1 | h1
          · exact hgoal (hpar c (Or.inl h1) hcr p hp)
          · have hct : c = t := by simpa using h1
            subst hct
            exact hgoal (hpar c (Or.inr (List.mem_cons_self c queue')) hcr p hp)
        · rcases List.mem_append.mp hc1 with h1 | h1
          · exact hgoal (hpar c (Or.inr (List.mem_cons_of_mem _ h1)) hcr p hp)
          · have hcs := (immediate_children_iff hwf.1).mp h1
            have hpt : p = t := by
              rw [hcs] at hp
              exact (Option.some.inj (Option.some.inj hp)).symm
            subst hpt
            rw [keys']
            exact List.mem_append.mpr (Or.inr (List.mem_singleton_self p))
      · intro k hk
        rw [keys'] at hk
        rcases List.mem_append.mp hk with h1 | h1
        · exact hsubm k h1
        · have : k = t := by simpa using h1
          exact this ▸ htm
      · rw [keys', List.length_append, List.length_singleton]
        omega

theorem subtree_spec {m : HeadMap} (hwf : WF m) {r : Nat} (hr : r ∈ keys m) :
    (keys (subtree_of_id m r)).Nodup ∧
    lookup? (subtree_of_id m r) r = some none ∧
    (∀ k ∈ keys (subtree_of_id m r), k ≠ r →
      desc m r k ∧ lookup? (subtree_of_id m r) k = lookup? m k) ∧
    (∀ x, desc m r x → x ∈ keys (subtree_of_id m r)) := by
  unfold subtree_of_id
  apply subtree_go_spec hwf r m.length [(r, none)] (immediate_children m r)
  · have hnot : r ∉ immediate_children m r := by
      intro hc
      exact not_desc_self hwf r
        (Relation.TransGen.single ((immediate_children_iff hwf.1).mp hc))
    have : keys [(r, (none : Option Nat))] ++ immediate_children m r =
        r :: immediate_children m r := by simp [keys]
    rw [this]
    exact List.nodup_cons.mpr ⟨hnot, immediate_children_nodup hwf.1 r⟩
  · simp [lookup?]
  · intro k hk hkr
    exact absurd (by simpa [keys] using hk) hkr
  · intro q hq
    exact Relation.TransGen.single ((immediate_children_iff hwf.1).mp hq)
  · intro x hx
    rcases Relation.TransGen.head'_iff.mp hx with ⟨c, hc1, hc2⟩
    right
    refine ⟨c, (immediate_children_iff hwf.1).mpr hc1, ?_⟩
    rcases Relation.reflTransGen_iff_eq_or_transGen.mp hc2 with he | ht
    · left; exact he
    · right; exact ht
  · intro c hc hcr p hp
    rcases hc with hc1 | hc1
    · exact absurd (by simpa [keys] using hc1) hcr
    · have hcs := (immediate_children_iff hwf.1).mp hc1
      have hpr : p = r := by
        rw [hcs] at hp
        exact (Option.some.inj (Option.some.inj hp)).symm
      simp [keys, hpr]
  · intro k hk
    have : k = r := by simpa [keys] using hk
    exact this ▸ hr
  · simp [keys]

/-! ### Soundness of the adjacency computation -/

theorem considerAdj_mem {m : HeadMap} {sids parent_ids adj : List Nat} {x a : Nat}
    (h : a ∈ considerAdj m sids parent_ids adj x) :
    a ∈ adj ∨ (a = x ∧ 0 < x ∧ x ∉ sids ∧ x ∉ parent_ids ∧ hasKey m x = true) := by
  by_cases hcond : 0 < x ∧ x ∉ sids ∧ x ∉ parent_ids ∧ hasKey m x = true ∧ x ∉ adj
  · unfold considerAdj at h
    rw [if_pos hcond] at h
    rcases List.mem_append.mp h with h1 | h1
    · exact Or.inl h1
    · have hax : a = x := by simpa using h1
      exact Or.inr ⟨hax, hcond.1, hcond.2.1, hcond.2.2.1, hcond.2.2.2.1⟩
  · unfold considerAdj at h
    rw [if_neg hcond] at h
    exact Or.inl h

theorem adjacent_mem {m : HeadMap} {sids : List Nat} {start a : Nat}
    (h : a ∈ adjacent_ids_of_subtree m sids start) :
    0 < a ∧ a ∉ sids ∧ a ∉ ancestor_chain m m.length (some start) ∧
      hasKey m a = true ∧ ∃ s ∈ sids, s = a + 1 ∨ a = s + 1 := by
  have main :
      ∀ (l acc : List Nat), (∀ t ∈ l, t ∈ sids) →
        (∀ b ∈ acc,
          0 < b ∧ b ∉ sids ∧ b ∉ ancestor_chain m m.length (some start) ∧
            hasKey m b = true ∧ ∃ s ∈ sids, s = b + 1 ∨ b = s + 1) →
        ∀ b ∈ List.foldl
            (fun adjacent token_id =>
              [token_id - 1, token_id + 1].foldl
                (considerAdj m sids (ancestor_chain m m.length (some start))) adjacent)
            acc l,
          0 < b ∧ b ∉ sids ∧ b ∉ ancestor_chain m m.length (some start) ∧
            hasKey m b = true ∧ ∃ s ∈ sids, s = b + 1 ∨ b = s + 1 := by
    intro l
    induction l with
    | nil => intro acc _ hacc b hb; exact hacc b hb
    | cons t l' ih =>
      intro acc hl hacc b hb
      refine ih _ (fun u hu => hl u (List.mem_cons_of_mem _ hu)) ?_ b hb
      intro c hc
      have htm : t ∈ sids := hl t (List.mem_cons_self t l')
      rcases considerAdj_mem (by simpa using hc) with h1 | ⟨he, hpos, hns, hnp, hhk⟩
      · rcases considerAdj_mem h1 with h2 | ⟨he, hpos, hns, hnp, hhk⟩
        · exact hacc c h2
        · -- c = t - 1 with 0 < t - 1
          refine ⟨he ▸ hpos, he ▸ hns, he ▸ hnp, he ▸ hhk, t, htm, Or.inl ?_⟩
          omega
      · -- c = t + 1
        exact ⟨he ▸ hpos, he ▸ hns, he ▸ hnp, he ▸ hhk, t, htm, Or.inr he⟩
  exact main sids [] (fun t ht => ht) (by intro b hb; simp at hb) a h

/-! ### Invariants of the sampling loop -/

theorem genLoop_book (cfg : TreeSgclConfig) (allsub : Nat → HeadMap) (subtree : HeadMap)
    (draws : Nat → List Nat × List Nat) :
    ∀ (fuel : Nat) (s s' : GenState),
      genLoop cfg allsub subtree draws fuel s = some s' →
      s.negatives.length ≤ cfg.max_negative_per_subtree →
      s.already_done.Nodup →
      s.already_done.length = s.negatives.length →
      s'.negatives.length ≤ cfg.max_negative_per_subtree ∧
        s'.already_done.Nodup ∧ s'.already_done.length = s'.negatives.length := by
  intro fuel
  induction fuel with
  | zero => intro s s' h; simp [genLoop] at h
  | succ fuel ih =>
    intro s s' h hle hnd heq
    simp only [genLoop] at h
    split_ifs at h with hguard hmem hretry
    · obtain rfl : _ = s' := Option.some.inj h
      exact ⟨hle, hnd, heq⟩
    · exact ih _ s' h hle hnd heq
    · refine ih _ s' h ?_ ?_ ?_
      · simp; omega
      · simp [List.nodup_append, hnd]
        exact hmem
      · simp [heq]
    · obtain rfl : s = s' := Option.some.inj h
      exact ⟨hle, hnd, heq⟩

theorem genLoop_prop (cfg : TreeSgclConfig) (allsub : Nat → HeadMap) (subtree : HeadMap)
    (draws : Nat → List Nat × List Nat) (P : HeadMap → Prop)
    (hbuild : ∀ n, P (buildNegative allsub subtree
      ((sortNat (draws n).1).zip (sortNat (draws n).2)))) :
    ∀ (fuel : Nat) (s s' : GenState),
      genLoop cfg allsub subtree draws fuel s = some s' →
      (∀ t ∈ s.negatives, P t) → ∀ t ∈ s'.negatives, P t := by
  intro fuel
  induction fuel with
  | zero => intro s s' h; simp [genLoop] at h
  | succ fuel ih =>
    intro s s' h hP
    simp only [genLoop] at h
    split_ifs at h with hguard hmem hretry
    · obtain rfl : _ = s' := Option.some.inj h
      exact hP
    · exact ih _ s' h hP
    · refine ih _ s' h ?_
      intro t ht
      rcases List.mem_append.mp ht with h1 | h1
      · exact hP t h1
      · have : t = buildNegative allsub subtree
            ((sortNat (draws s.draw_idx).1).zip (sortNat (draws s.draw_idx).2)) := by
          simpa using h1
        exact this ▸ hbuild s.draw_idx
    · obtain rfl : s = s' := Option.some.inj h
      exact hP

theorem genLoop_term (cfg : TreeSgclConfig) (allsub : Nat → HeadMap) (subtree : HeadMap)
    (draws : Nat → List Nat × List Nat) :
    ∀ (fuel : Nat) (s : GenState),
      s.negatives.length ≤ cfg.max_negative_per_subtree →
      (cfg.max_negative_per_subtree - s.negatives.length) +
        (cfg.max_retry + 1 - s.retry_count) < fuel →
      ∃ s', genLoop cfg allsub subtree draws fuel s = some s' ∧
        (s'.negatives.length = cfg.max_negative_per_subtree ∨
          cfg.max_retry < s'.retry_count) := by
  intro fuel
  induction fuel with
  | zero => intro s _ h; omega
  | succ fuel ih =>
    intro s hle hμ
    by_cases hguard : s.negatives.length < cfg.max_negative_per_subtree
    · by_cases hmem :
        (sortNat (draws s.draw_idx).1, sortNat (draws s.draw_idx).2) ∈ s.already_done
      · by_cases hretry : cfg.max_retry < s.retry_count + 1
        · refine ⟨{ s with retry_count := s.retry_count + 1, draw_idx := s.draw_idx + 1 },
            ?_, Or.inr (by simpa using hretry)⟩
          simp only [genLoop]
          rw [if_pos hguard, if_pos hmem, if_pos hretry]
        · obtain ⟨s', hs', hout⟩ := ih
            { s with retry_count := s.retry_count + 1, draw_idx := s.draw_idx + 1 }
            (by simpa using hle) (by simp; omega)
          refine ⟨s', ?_, hout⟩
          simp only [genLoop]
          rw [if_pos hguard, if_pos hmem, if_neg hretry]
          exact hs'
      · obtain ⟨s', hs', hout⟩ := ih
          { s with
              already_done := s.already_done ++
                [(sortNat (draws s.draw_idx).1, sortNat (draws s.draw_idx).2)],
              negatives := s.negatives ++
                [buildNegative allsub subtree
                  ((sortNat (draws s.draw_idx).1).zip (sortNat (draws s.draw_idx).2))],
              draw_idx := s.draw_idx + 1 }
          (by simp; omega) (by simp; omega)
        refine ⟨s', ?_, hout⟩
        simp only [genLoop]
        rw [if_pos hguard, if_neg hmem]
        exact hs'
    · refine ⟨s, ?_, Or.inl (by omega)⟩
      simp only [genLoop]
      rw [if_neg hguard]

/-! ### The splice preserves entries outside the touched subtrees -/

theorem mem_zip_split {α β : Type} {l₁ : List α} {l₂ : List β} {a : α} {b : β}
    (h : (a, b) ∈ l₁.zip l₂) : a ∈ l₁ ∧ b ∈ l₂ := by
  induction l₁ generalizing l₂ with
  | nil => simp [List.zip] at h
  | cons x l₁' ih =>
    cases l₂ with
    | nil => simp [List.zip] at h
    | cons y l₂' =>
      rcases List.mem_cons.mp h with h1 | h1
      · injection h1 with h2 h3
        subst h2; subst h3
        exact ⟨List.mem_cons_self _ _, List.mem_cons_self _ _⟩
      · obtain ⟨ha, hb⟩ := ih h1
        exact ⟨List.mem_cons_of_mem _ ha, List.mem_cons_of_mem _ hb⟩

theorem foldl_lookup_invariant {l : List (Nat × Option Nat)} {rt : Nat}
    (g : HeadMap → Nat × Option Nat → HeadMap)
    (hg : ∀ acc p, p ∈ l → lookup? (g acc p) rt = lookup? acc rt) :
    ∀ nt, lookup? (l.foldl g nt) rt = lookup? nt rt := by
  induction l with
  | nil => intro nt; rfl
  | cons p l' ih =>
    intro nt
    rw [List.foldl_cons, ih (fun acc q hq => hg acc q (List.mem_cons_of_mem _ hq)),
      hg nt p (List.mem_cons_self p l')]

theorem spliceOne_lookup {allsub : Nat → HeadMap} {nt : HeadMap} {rt : Nat}
    {tv : Nat × Nat}
    (ht : rt ∉ keys (allsub tv.1)) (hv : rt ∉ keys (allsub tv.2)) :
    lookup? (spliceOne allsub nt tv) rt = lookup? nt rt := by
  unfold spliceOne
  rw [foldl_lookup_invariant _ ?hins, foldl_lookup_invariant _ ?hers]
  case hins =>
    intro acc p hp
    have hne : p.1 ≠ rt := by
      intro he
      exact hv (he ▸ List.mem_map.mpr ⟨p, hp, rfl⟩)
    exact insertKey_lookup_ne _ _ _ (Ne.symm hne)
  case hers =>
    intro acc p hp
    have hne : p.1 ≠ rt := by
      intro he
      exact ht (he ▸ List.mem_map.mpr ⟨p, hp, rfl⟩)
    exact eraseKey_lookup_ne _ _ (Ne.symm hne)

theorem buildNegative_lookup {allsub : Nat → HeadMap} {rt : Nat}
    {pairs : List (Nat × Nat)}
    (hp : ∀ p ∈ pairs, rt ∉ keys (allsub p.1) ∧ rt ∉ keys (allsub p.2)) :
    ∀ subtree, lookup? (buildNegative allsub subtree pairs) rt = lookup? subtree rt := by
  unfold buildNegative
  induction pairs with
  | nil => intro subtree; rfl
  | cons q pairs' ih =>
    intro subtree
    rw [List.foldl_cons, ih (fun p hmem => hp p (List.mem_cons_of_mem _ hmem)),
      spliceOne_lookup (hp q (List.mem_cons_self q pairs')).1
        (hp q (List.mem_cons_self q pairs')).2]

/-! ### Behaviour of the loop when every draw is the empty sample -/

theorem genLoop_stuck (cfg : TreeSgclConfig) (allsub : Nat → HeadMap) (subtree : HeadMap)
    (draws : Nat → List Nat × List Nat)
    (hd : ∀ n, (draws n).1 = [] ∧ (draws n).2 = []) :
    ∀ (fuel : Nat) (s : GenState),
      (([], []) : List Nat × List Nat) ∈ s.already_done →
      s.retry_count ≤ cfg.max_retry + 1 →
      cfg.max_retry + 2 ≤ fuel + s.retry_count →
      ∃ s', genLoop cfg allsub subtree draws fuel s = some s' ∧
        s'.negatives = s.negatives := by
  intro fuel
  induction fuel with
  | zero => intro s _ h1 h2; omega
  | succ fuel ih =>
    intro s hmem0 hr hf
    by_cases hguard : s.negatives.length < cfg.max_negative_per_subtree
    · have hmem : (sortNat (draws s.draw_idx).1, sortNat (draws s.draw_idx).2) ∈
          s.already_done := by
        rw [(hd s.draw_idx).1, (hd s.draw_idx).2]
        exact hmem0
      by_cases hretry : cfg.max_retry < s.retry_count + 1
      · refine ⟨{ s with retry_count := s.retry_count + 1, draw_idx := s.draw_idx + 1 },
          ?_, rfl⟩
        simp only [genLoop]
        rw [if_pos hguard, if_pos hmem, if_pos hretry]
      · obtain ⟨s', hs', hneg⟩ := ih
          { s with retry_count := s.retry_count + 1, draw_idx := s.draw_idx + 1 }
          (by simpa using hmem0) (by simp; omega) (by simp; omega)
        refine ⟨s', ?_, hneg⟩
        simp only [genLoop]
        rw [if_pos hguard, if_pos hmem, if_neg hretry]
        exact hs'
    · exact ⟨s, by simp only [genLoop]; rw [if_neg hguard], rfl⟩

theorem genFinal_sample_zero (cfg : TreeSgclConfig) (allsub : Nat → HeadMap)
    (draws : Nat → List Nat × List Nat)
    (hd : ∀ n, (draws n).1 = [] ∧ (draws n).2 = []) (subtree : HeadMap) :
    (genFinal cfg allsub subtree draws).negatives =
      if cfg.max_negative_per_subtree = 0 then [] else [subtree] := by
  by_cases h0 : cfg.max_negative_per_subtree = 0
  · obtain ⟨s', heq, _⟩ := genLoop_term cfg allsub subtree draws
      (cfg.max_negative_per_subtree + cfg.max_retry + 2) ⟨[], [], 0, 0⟩
      (by simp) (by simp; omega)
    obtain ⟨hlen, _, _⟩ := genLoop_book cfg allsub subtree draws _ _ _ heq
      (by simp) (by simp) (by simp)
    unfold genFinal
    rw [heq, if_pos h0]
    rw [h0] at hlen
    simpa using List.eq_nil_of_length_eq_zero (by omega)
  · have hfe : cfg.max_negative_per_subtree + cfg.max_retry + 2 =
        (cfg.max_negative_per_subtree + cfg.max_retry + 1) + 1 := rfl
    have hstep : genLoop cfg allsub subtree draws
        (cfg.max_negative_per_subtree + cfg.max_retry + 2) ⟨[], [], 0, 0⟩ =
        genLoop cfg allsub subtree draws
          (cfg.max_negative_per_subtree + cfg.max_retry + 1)
          ⟨[([], [])], [subtree], 0, 1⟩ := by
      rw [hfe]
      simp only [genLoop]
      rw [if_pos (by simp; omega), if_neg (by simp)]
      rw [(hd 0).1, (hd 0).2]
      simp [sortNat, buildNegative]
    obtain ⟨s', heq, hneg⟩ := genLoop_stuck cfg allsub subtree draws hd
      (cfg.max_negative_per_subtree + cfg.max_retry + 1) ⟨[([], [])], [subtree], 0, 1⟩
      (by simp) (by simp) (by simp; omega)
    unfold genFinal
    rw [hstep, heq, if_neg h0]
    exact hneg

/-! ### Error propagation in the Finalize model -/

theorem exceptMap_error {α β : Type} (f : α → β) (x : Except String α) :
    (∃ e, x.map f = .error e) ↔ (∃ e, x = .error e) := by
  cases x with
  | error e => simp [Except.map]
  | ok a => simp [Except.map]

/-! ### Claim theorems -/

/-- C7: on a well-formed (acyclic, single-rooted) parent map, for any token
id `r` in it, `subtree_of_id m r` maps `r` to `none`, maps every transitive
descendant of `r` to that descendant's true parent in `m`, and contains no
keys other than `r` and its transitive descendants. -/
theorem subtree_of_id_is_descendant_closure {m : HeadMap} {r : Nat}
    (hwf : WF m) (hr : r ∈ keys m) :
    lookup? (subtree_of_id m r) r = some none ∧
    (∀ x, desc m r x →
      x ∈ keys (subtree_of_id m r) ∧ lookup? (subtree_of_id m r) x = lookup? m x) ∧
    (∀ x ∈ keys (subtree_of_id m r), x = r ∨ desc m r x) := by
  obtain ⟨hnd, hroot, hsub, hcomp⟩ := subtree_spec hwf hr
  refine ⟨hroot, ?_, ?_⟩
  · intro x hx
    have hxm := hcomp x hx
    have hxr : x ≠ r := fun he => not_desc_self hwf r (he ▸ hx)
    exact ⟨hxm, (hsub x hxm hxr).2⟩
  · intro x hx
    by_cases hxr : x = r
    · exact Or.inl hxr
    · exact Or.inr (hsub x hx hxr).1

/-- Witness for C7 at the spec's example map, root 2. -/
theorem subtree_of_id_is_descendant_closure_witness :
    WF exMap ∧ 2 ∈ keys exMap ∧
    (lookup? (subtree_of_id exMap 2) 2 = some none ∧
     (∀ x, desc exMap 2 x →
       x ∈ keys (subtree_of_id exMap 2) ∧
         lookup? (subtree_of_id exMap 2) x = lookup? exMap x) ∧
     (∀ x ∈ keys (subtree_of_id exMap 2), x = 2 ∨ desc exMap 2 x)) :=
  ⟨by decide, by decide, subtree_of_id_is_descendant_closure (by decide) (by decide)⟩

/-- C8: every id produced by `adjacent_ids_of_subtree` for the key set of a
subtree (a descendant closure) is a key of the map, differs by exactly one
position from some subtree id, lies outside the subtree, and is neither the
subtree's root nor one of its ancestors. -/
theorem adjacent_ids_sound {m : HeadMap} {rt start a : Nat}
    (hwf : WF m) (hrt : rt ∈ keys m)
    (hstart : start ∈ keys (subtree_of_id m rt))
    (ha : a ∈ adjacent_ids_of_subtree m (keys (subtree_of_id m rt)) start) :
    a ∈ keys m ∧
    (∃ s ∈ keys (subtree_of_id m rt), s = a + 1 ∨ a = s + 1) ∧
    a ∉ keys (subtree_of_id m rt) ∧
    ¬ upReach m rt a := by
  obtain ⟨hpos, hns, hnp, hhk, hex⟩ := adjacent_mem ha
  obtain ⟨hnd, hroot, hsub, hcomp⟩ := subtree_spec hwf hrt
  have hstart_up : upReach m start rt := by
    by_cases hsr : start = rt
    · exact hsr ▸ Relation.ReflTransGen.refl
    · exact desc_upReach (hsub start hstart hsr).1
  have hstartm : start ∈ keys m := by
    by_cases hsr : start = rt
    · exact hsr ▸ hrt
    · exact desc_mem_keys (hsub start hstart hsr).1
  refine ⟨hasKey_iff.mp hhk, hex, hns, ?_⟩
  intro hup
  exact hnp (upReach_mem_chain hwf hstartm (Relation.ReflTransGen.trans hstart_up hup))

/-- Witness for C8 at the spec's example map, root 2, start 2, adjacent
id 3. -/
theorem adjacent_ids_sound_witness :
    WF exMap ∧ 2 ∈ keys exMap ∧ 2 ∈ keys (subtree_of_id exMap 2) ∧
    3 ∈ adjacent_ids_of_subtree exMap (keys (subtree_of_id exMap 2)) 2 ∧
    (3 ∈ keys exMap ∧
     (∃ s ∈ keys (subtree_of_id exMap 2), s = 3 + 1 ∨ 3 = s + 1) ∧
     3 ∉ keys (subtree_of_id exMap 2) ∧ ¬ upReach exMap 2 3) :=
  ⟨by decide, by decide, by decide, by decide,
    @adjacent_ids_sound exMap 2 2 3 (by decide) (by decide) (by decide) (by decide)⟩

/-- C5: the negatives list returned by `generate_negative_trees` never
exceeds `max_negative_per_subtree` entries, and the signatures recorded for
the appended negatives (`already_done`) are pairwise distinct, one per
appended negative. -/
theorem generate_negative_trees_bounded_and_distinct (cfg : TreeSgclConfig)
    (allsub : Nat → HeadMap) (draws : Nat → List Nat × List Nat) (root_id : Nat)
    (subtree : HeadMap) (adjacent_ids : List Nat) :
    (generate_negative_trees cfg allsub draws root_id subtree
        adjacent_ids).negatives.length ≤ cfg.max_negative_per_subtree ∧
    (genFinal cfg allsub subtree draws).already_done.Nodup ∧
    (genFinal cfg allsub subtree draws).already_done.length =
      (generate_negative_trees cfg allsub draws root_id subtree
        adjacent_ids).negatives.length := by
  have hgen : (generate_negative_trees cfg allsub draws root_id subtree
      adjacent_ids).negatives = (genFinal cfg allsub subtree draws).negatives := rfl
  rw [hgen]
  unfold genFinal
  cases heq : genLoop cfg allsub subtree draws
      (cfg.max_negative_per_subtree + cfg.max_retry + 2) ⟨[], [], 0, 0⟩ with
  | none => simp
  | some s' =>
    obtain ⟨h1, h2, h3⟩ := genLoop_book cfg allsub subtree draws _ _ _ heq
      (by simp) (by simp) (by simp)
    simpa using ⟨h1, h2, h3⟩

/-- C6: the sampling loop of `generate_negative_trees` terminates on every
input: with fuel `max_negative_per_subtree + max_retry + 2` it always
reaches a final state, which either filled the quota or has a retry count
exceeding `max_retry`; `genFinal` returns that state's negatives. -/
theorem genLoop_always_terminates (cfg : TreeSgclConfig) (allsub : Nat → HeadMap)
    (subtree : HeadMap) (draws : Nat → List Nat × List Nat) :
    ∃ s', genLoop cfg allsub subtree draws
        (cfg.max_negative_per_subtree + cfg.max_retry + 2) ⟨[], [], 0, 0⟩ = some s' ∧
      (s'.negatives.length = cfg.max_negative_per_subtree ∨
        cfg.max_retry < s'.retry_count) ∧
      (genFinal cfg allsub subtree draws).negatives = s'.negatives := by
  obtain ⟨s', heq, hout⟩ := genLoop_term cfg allsub subtree draws
    (cfg.max_negative_per_subtree + cfg.max_retry + 2) ⟨[], [], 0, 0⟩
    (by simp) (by simp; omega)
  refine ⟨s', heq, hout, ?_⟩
  unfold genFinal
  rw [heq]
  rfl

/-- C9: with a treebank dataset present and a positive
`unlabeled_per_labeled`, the `Finalize.run` bookkeeping fails — aborting
the whole batch with no partial result — exactly when the train split's
treebank row count exceeds its base row count integer-divided by
`unlabeled_per_labeled`. -/
theorem finalizeRun_error_iff (splits : List (String × Nat × Nat)) (upl : Nat)
    (hupl : 0 < upl) :
    (∃ e, finalizeRun splits upl = .error e) ↔
      (∃ base tb, ("train", base, tb) ∈ splits ∧ base / upl < tb) := by
  induction splits with
  | nil => simp [finalizeRun]
  | cons p rest ih =>
    obtain ⟨name, base, tb⟩ := p
    by_cases hn : name = "train"
    · subst hn
      by_cases hcond : base / upl < tb
      · constructor
        · intro _
          exact ⟨base, tb, List.mem_cons_self _ _, hcond⟩
        · intro _
          refine ⟨"More treebank rows than expected!", ?_⟩
          unfold finalizeRun
          rw [if_pos rfl, if_neg (by omega), if_pos hcond]
      · unfold finalizeRun
        rw [if_pos rfl, if_neg (by omega), if_neg hcond, exceptMap_error, ih]
        constructor
        · rintro ⟨b, t, hmem, hc⟩
          exact ⟨b, t, List.mem_cons_of_mem _ hmem, hc⟩
        · rintro ⟨b, t, hmem, hc⟩
          rcases List.mem_cons.mp hmem with h1 | h1
          · injection h1 with h2 h3
            injection h3 with h4 h5
            subst h4; subst h5
            exact absurd hc hcond
          · exact ⟨b, t, h1, hc⟩
    · unfold finalizeRun
      rw [if_neg hn, exceptMap_error, ih]
      constructor
      · rintro ⟨b, t, hmem, hc⟩
        exact ⟨b, t, List.mem_cons_of_mem _ hmem, hc⟩
      · rintro ⟨b, t, hmem, hc⟩
        rcases List.mem_cons.mp hmem with h1 | h1
        · injection h1 with h2 h3
          exact absurd h2.symm hn
        · exact ⟨b, t, h1, hc⟩

/-- Witness for C9: base 8, treebank 2, `unlabeled_per_labeled` 8 on the
train split (2 > 8 / 8 = 1, so the run errors). -/
theorem finalizeRun_error_iff_witness :
    0 < 8 ∧
    ((∃ e, finalizeRun [("train", 8, 2), ("dev", 5, 5)] 8 = .error e) ↔
      (∃ base tb, ("train", base, tb) ∈ [("train", 8, 2), ("dev", 5, 5)] ∧
        base / 8 < tb)) :=
  ⟨by decide, finalizeRun_error_iff _ 8 (by decide)⟩

/-- C10: when `generate_negative_trees` is wired as in the pipeline (all
subtrees, positive subtree and adjacency computed from a well-formed map),
every returned negative still contains the entry `root_id ↦ none`: the
sampled targets never include the local root, no excised target subtree
contains `root_id`, and no spliced replacement subtree overwrites the
`root_id` entry. -/
theorem negatives_preserve_local_root {m : HeadMap} (cfg : TreeSgclConfig)
    (draws : Nat → List Nat × List Nat) {rt start : Nat}
    (hwf : WF m) (hrt : rt ∈ keys m)
    (hstart : start ∈ keys (subtree_of_id m rt))
    (hdraws : ∀ n,
      ValidSample (all_replacement_targets (subtree_of_id m rt))
        (sample_size cfg (subtree_of_id m rt)
          (adjacent_ids_of_subtree m (keys (subtree_of_id m rt)) start)) (draws n).1 ∧
      ValidSample (adjacent_ids_of_subtree m (keys (subtree_of_id m rt)) start)
        (sample_size cfg (subtree_of_id m rt)
          (adjacent_ids_of_subtree m (keys (subtree_of_id m rt)) start)) (draws n).2) :
    ∀ neg ∈ (generate_negative_trees cfg (get_all_subtrees m) draws rt
        (subtree_of_id m rt)
        (adjacent_ids_of_subtree m (keys (subtree_of_id m rt)) start)).negatives,
      lookup? neg rt = some none := by
  obtain ⟨hnd, hroot, hsub, hcomp⟩ := subtree_spec hwf hrt
  have hrt_in : rt ∈ keys (subtree_of_id m rt) :=
    mem_keys_iff_lookup.mpr (by simp [hroot])
  have hup_start : upReach m start rt := by
    by_cases hsr : start = rt
    · exact hsr ▸ Relation.ReflTransGen.refl
    · exact desc_upReach (hsub start hstart hsr).1
  have hstartm : start ∈ keys m := by
    by_cases hsr : start = rt
    · exact hsr ▸ hrt
    · exact desc_mem_keys (hsub start hstart hsr).1
  have htarget : ∀ t ∈ all_replacement_targets (subtree_of_id m rt),
      rt ∉ keys (subtree_of_id m t) := by
    intro t ht hmem
    obtain ⟨⟨t', v⟩, hmemf, hfst⟩ := List.mem_map.mp ht
    obtain ⟨hmem', hvsome⟩ := List.mem_filter.mp hmemf
    simp at hfst
    subst hfst
    have hlk : lookup? (subtree_of_id m rt) t' = some v := mem_lookup hnd hmem'
    have htne : t' ≠ rt := by
      intro he
      rw [he, hroot] at hlk
      have hvn : v = none := (Option.some.inj hlk).symm
      rw [hvn] at hvsome
      simp at hvsome
    have htk : t' ∈ keys (subtree_of_id m rt) := List.mem_map.mpr ⟨(t', v), hmem', rfl⟩
    have hdesc_t : desc m rt t' := (hsub t' htk htne).1
    have htm : t' ∈ keys m := desc_mem_keys hdesc_t
    obtain ⟨_, _, hsub_t, _⟩ := subtree_spec hwf htm
    have hback : desc m t' rt := (hsub_t rt hmem (Ne.symm htne)).1
    exact not_desc_self hwf rt (Relation.TransGen.trans hdesc_t hback)
  have hvalue : ∀ v ∈ adjacent_ids_of_subtree m (keys (subtree_of_id m rt)) start,
      rt ∉ keys (subtree_of_id m v) := by
    intro v hv hmem
    obtain ⟨hpos, hns, hnp, hhk, _⟩ := adjacent_mem hv
    have hvm : v ∈ keys m := hasKey_iff.mp hhk
    obtain ⟨_, _, hsub_v, _⟩ := subtree_spec hwf hvm
    by_cases hrv : rt = v
    · exact hns (hrv ▸ hrt_in)
    · have hdvrt : desc m v rt := (hsub_v rt hmem hrv).1
      exact hnp (upReach_mem_chain hwf hstartm
        (Relation.ReflTransGen.trans hup_start (desc_upReach hdvrt)))
  have hbuild : ∀ n, lookup? (buildNegative (get_all_subtrees m) (subtree_of_id m rt)
      ((sortNat (draws n).1).zip (sortNat (draws n).2))) rt = some none := by
    intro n
    rw [buildNegative_lookup ?hp (subtree_of_id m rt)]
    · exact hroot
    case hp =>
      intro p hp
      obtain ⟨h1, h2⟩ := mem_zip_split hp
      have h1' : p.1 ∈ (draws n).1 := by simpa [sortNat] using h1
      have h2' : p.2 ∈ (draws n).2 := by simpa [sortNat] using h2
      exact ⟨htarget p.1 ((hdraws n).1.2.2 p.1 h1'),
        hvalue p.2 ((hdraws n).2.2.2 p.2 h2')⟩
  intro neg hneg
  have hgen : (generate_negative_trees cfg (get_all_subtrees m) draws rt
      (subtree_of_id m rt)
      (adjacent_ids_of_subtree m (keys (subtree_of_id m rt)) start)).negatives =
      (genFinal cfg (get_all_subtrees m) (subtree_of_id m rt) draws).negatives := rfl
  rw [hgen] at hneg
  unfold genFinal at hneg
  cases heq : genLoop cfg (get_all_subtrees m) (subtree_of_id m rt) draws
      (cfg.max_negative_per_subtree + cfg.max_retry + 2) ⟨[], [], 0, 0⟩ with
  | none => rw [heq] at hneg; simp at hneg
  | some s' =>
    rw [heq] at hneg
    exact genLoop_prop cfg (get_all_subtrees m) (subtree_of_id m rt) draws
      (fun t => lookup? t rt = some none) hbuild _ _ _ heq
      (by intro t ht; simp at ht) neg (by simpa using hneg)

/-- Witness for C10 at the spec's example: root 2, start 2, the unique
valid draw (targets [4], values [3]). -/
theorem negatives_preserve_local_root_witness :
    WF exMap ∧ 2 ∈ keys exMap ∧ 2 ∈ keys (subtree_of_id exMap 2) ∧
    (∀ neg ∈ (generate_negative_trees ⟨2, 1, 3, 0⟩ (get_all_subtrees exMap)
        (fun _ => ([4], [3])) 2 (subtree_of_id exMap 2)
        (adjacent_ids_of_subtree exMap (keys (subtree_of_id exMap 2)) 2)).negatives,
      lookup? neg 2 = some none) :=
  by
  have hv : ValidSample (all_replacement_targets (subtree_of_id exMap 2))
      (sample_size ⟨2, 1, 3, 0⟩ (subtree_of_id exMap 2)
        (adjacent_ids_of_subtree exMap (keys (subtree_of_id exMap 2)) 2)) [4] ∧
      ValidSample (adjacent_ids_of_subtree exMap (keys (subtree_of_id exMap 2)) 2)
        (sample_size ⟨2, 1, 3, 0⟩ (subtree_of_id exMap 2)
          (adjacent_ids_of_subtree exMap (keys (subtree_of_id exMap 2)) 2)) [3] :=
    ⟨⟨by decide, by decide, by decide⟩, ⟨by decide, by decide, by decide⟩⟩
  exact ⟨by decide, by decide, by decide,
    @negatives_preserve_local_root exMap ⟨2, 1, 3, 0⟩ (fun _ => ([4], [3])) 2 2
      (by decide) (by decide) (by decide) (fun _ => hv)⟩

/-- C1 (code evaluation): at the spec's example, splicing value 3 in for
target 4 attaches the replacement subtree's local root (id 3) to the deleted
target id 4 itself — `subtree_head_id` is the `none`-valued key of
`all_subtrees[4]`, which is 4 — and not to the target's recorded parent
`subtree[4] = 2` as the claim states.  All other entries of the replacement
subtree (there are none here) are unchanged. -/
theorem splice_attaches_replacement_root_to_target :
    buildNegative (get_all_subtrees exMap) (subtree_of_id exMap 2) [(4, 3)] =
      [(2, none), (3, some 4)] ∧
    lookup? (subtree_of_id exMap 2) 4 = some (some 2) ∧
    lookup? [((2 : Nat), (none : Option Nat)), (3, some 4)] 3 = some (some 4) ∧
    some (some (4 : Nat)) ≠ some (some 2) :=
  ⟨by decide, by decide, by decide, by decide⟩

/-- C2 (code evaluation): on the spec's end-to-end example the subtree,
adjacency set and eligibility are as claimed and generation terminates with
exactly one negative, but that negative is `{2: none, 3: 4}` (the
replacement root is attached to the deleted target 4), not the claimed
`{2: none, 3: 2}`. -/
theorem generate_example_negative_maps_3_to_4 :
    subtree_of_id exMap 2 = [(2, none), (4, some 2)] ∧
    adjacent_ids_of_subtree exMap (keys (subtree_of_id exMap 2)) 2 = [3] ∧
    adjacent_ids_of_subtree exMap (keys (subtree_of_id exMap 2)) 4 = [3] ∧
    eligible ⟨2, 1, 3, 0⟩ (subtree_of_id exMap 2)
      (adjacent_ids_of_subtree exMap (keys (subtree_of_id exMap 2)) 2) ∧
    (generate_negative_trees ⟨2, 1, 3, 0⟩ (get_all_subtrees exMap)
        (fun _ => ([4], [3])) 2 (subtree_of_id exMap 2)
        (adjacent_ids_of_subtree exMap (keys (subtree_of_id exMap 2)) 2)).negatives =
      [[(2, none), (3, some 4)]] ∧
    lookup? [((2 : Nat), (none : Option Nat)), (3, some 4)] 3 ≠ some (some 2) :=
  ⟨by decide, by decide, by decide, by decide, by decide, by decide⟩

/-- C4 (code evaluation): the negative generated on the spec's example is
`{2: none, 3: 4}`; its non-root entry `3 ↦ 4` points at id 4, which is not
a key of the mapping, so the negative is not a valid parent map (its parent
chain leaves the mapping instead of terminating at the local root). -/
theorem negative_has_dangling_parent :
    (generate_negative_trees ⟨2, 1, 3, 0⟩ (get_all_subtrees exMap)
        (fun _ => ([4], [3])) 2 (subtree_of_id exMap 2)
        (adjacent_ids_of_subtree exMap (keys (subtree_of_id exMap 2)) 2)).negatives =
      [[(2, none), (3, some 4)]] ∧
    lookup? [((2 : Nat), (none : Option Nat)), (3, some 4)] 3 = some (some 4) ∧
    hasKey [((2 : Nat), (none : Option Nat)), (3, some 4)] 4 = false :=
  ⟨by decide, by decide, by decide⟩

/-- C3 (counterexample): with `sample_size = 0` (singleton positive subtree
and empty adjacency) and `max_negative_per_subtree = 1`, the returned
negatives list is not empty — one unmodified copy of the positive subtree
is appended. -/
theorem sample_size_zero_negatives_nonempty :
    sample_size ⟨1, 1, 1, 0⟩ [(1, none)] [] = 0 ∧
    (generate_negative_trees ⟨1, 1, 1, 0⟩ (fun _ => []) (fun _ => ([], [])) 1
        [(1, none)] []).negatives = [[(1, none)]] ∧
    ([[((1 : Nat), (none : Option Nat))]] : List HeadMap) ≠ [] :=
  ⟨by decide, by decide, by decide⟩

/-- C3 (amended): when `sample_size = 0` — so every valid draw is the empty
sample — `generate_negative_trees` produces no genuine negatives: the first
iteration appends one unmodified copy of the positive subtree and every
later iteration collides, so the negatives list is empty when
`max_negative_per_subtree = 0` and is exactly that single copy otherwise. -/
theorem generate_sample_size_zero (cfg : TreeSgclConfig) (allsub : Nat → HeadMap)
    (draws : Nat → List Nat × List Nat) (root_id : Nat) (subtree : HeadMap)
    (adjacent_ids : List Nat)
    (hss : sample_size cfg subtree adjacent_ids = 0)
    (hdraws : ∀ n,
      ValidSample (all_replacement_targets subtree)
        (sample_size cfg subtree adjacent_ids) (draws n).1 ∧
      ValidSample adjacent_ids (sample_size cfg subtree adjacent_ids) (draws n).2) :
    (generate_negative_trees cfg allsub draws root_id subtree adjacent_ids).negatives =
      if cfg.max_negative_per_subtree = 0 then [] else [subtree] := by
  have hd : ∀ n, (draws n).1 = [] ∧ (draws n).2 = [] := by
    intro n
    obtain ⟨⟨hl1, _, _⟩, ⟨hl2, _, _⟩⟩ := hdraws n
    rw [hss] at hl1 hl2
    exact ⟨List.eq_nil_of_length_eq_zero hl1, List.eq_nil_of_length_eq_zero hl2⟩
  show (genFinal cfg allsub subtree draws).negatives = _
  exact genFinal_sample_zero cfg allsub draws hd subtree

/-- Witness for the amended C3: singleton subtree, empty adjacency,
quota 2, retry budget 0 — the loop appends the positive copy and then
breaks on the first collision. -/
theorem generate_sample_size_zero_witness :
    sample_size ⟨1, 1, 2, 0⟩ [(1, none)] [] = 0 ∧
    (generate_negative_trees ⟨1, 1, 2, 0⟩ (fun _ => []) (fun _ => ([], [])) 1
        [(1, none)] []).negatives =
      if (⟨1, 1, 2, 0⟩ : TreeSgclConfig).max_negative_per_subtree = 0 then []
      else [[(1, none)]] :=
  by
  have hv : ValidSample (all_replacement_targets [(1, none)])
      (sample_size ⟨1, 1, 2, 0⟩ [(1, none)] []) [] ∧
      ValidSample [] (sample_size ⟨1, 1, 2, 0⟩ [(1, none)] []) [] :=
    ⟨⟨by decide, by decide, by decide⟩, ⟨by decide, by decide, by decide⟩⟩
  exact ⟨by decide,
    generate_sample_size_zero ⟨1, 1, 2, 0⟩ (fun _ => []) (fun _ => ([], [])) 1
      [(1, none)] [] (by decide) (fun _ => hv)⟩

end LrSib
